import Mathlib

/-!
Shallow embedding of the CSS language-server core (`src/css/server.ts`):
the model cache, the debounced validation scheduler, the dialect dispatch
with css fallback, and the guarded query handlers.  Timers are modelled as a
map from document uri to an armed deadline; an explicit `advanceTime`
operation fires every due timer in deadline order, matching the single
threaded event-loop host described in the design.
-/

namespace CssServer

/-- A text document handle: identity (uri), dialect id, version and content. -/
structure TextDocument where
  uri : String
  languageId : String
  version : Nat
  content : String
deriving DecidableEq

structure Position where
  line : Nat
  character : Nat
deriving DecidableEq

structure Range where
  startPos : Position
  endPos : Position
deriving DecidableEq

structure Diagnostic where
  message : String
deriving DecidableEq

/-- Opaque parsed stylesheet model (the derived model of a document). -/
structure Stylesheet where
  modelId : Nat
deriving DecidableEq

/-- Opaque dialect configuration blob. -/
structure LanguageSettings where
  options : List (String × String)
deriving DecidableEq

structure CompletionItem where
  label : String
deriving DecidableEq

/-- Raw completion result produced by an engine's doComplete. -/
structure RawCompletionList where
  isIncomplete : Bool
  items : List CompletionItem
deriving DecidableEq

/-- Completion list sent back to the client. -/
structure CompletionList where
  isIncomplete : Bool
  items : List CompletionItem
deriving DecidableEq

structure Hover where
  contents : String
deriving DecidableEq

structure Location where
  uri : String
  range : Range
deriving DecidableEq

structure SymbolInformation where
  name : String
  location : Location
deriving DecidableEq

structure DocumentHighlight where
  range : Range
deriving DecidableEq

structure CodeActionContext where
  diagnostics : List Diagnostic
deriving DecidableEq

structure Command where
  title : String
deriving DecidableEq

structure WorkspaceEdit where
  changes : List (String × String)
deriving DecidableEq

/-- An analysis engine (one per dialect).  Engine computations are external
and may throw; a thrown exception is an `Except.error` carrying the message.
`config` records the settings last forwarded by `configure`. -/
structure LanguageService where
  parseStylesheet : TextDocument → Except String Stylesheet
  doValidation : TextDocument → Stylesheet → Option LanguageSettings → Except String (List Diagnostic)
  doComplete : TextDocument → Position → Stylesheet → Except String RawCompletionList
  doHover : TextDocument → Position → Stylesheet → Except String (Option Hover)
  findDocumentSymbols : TextDocument → Stylesheet → Except String (List SymbolInformation)
  findDefinition : TextDocument → Position → Stylesheet → Except String (Option Location)
  findDocumentHighlights : TextDocument → Position → Stylesheet → Except String (List DocumentHighlight)
  findReferences : TextDocument → Position → Stylesheet → Except String (List Location)
  doCodeActions : TextDocument → Range → CodeActionContext → Stylesheet → Except String (List Command)
  doRename : TextDocument → Position → String → Stylesheet → Except String (Option WorkspaceEdit)
  config : Option LanguageSettings

/-- `configure` forwards a dialect configuration to an engine (the engine's
internal behaviour change is out of scope; the forwarded settings are
recorded). -/
def LanguageService.configure (service : LanguageService) (settings : LanguageSettings) :
    LanguageService :=
  { service with config := some settings }

/-- The fixed engine registry `languageServices` with keys css, scss, less. -/
structure LanguageServices where
  css : LanguageService
  scss : LanguageService
  less : LanguageService

/-- Key lookup in the `languageServices` object literal. -/
def LanguageServices.lookup (ls : LanguageServices) (id : String) : Option LanguageService :=
  if id = "css" then some ls.css
  else if id = "scss" then some ls.scss
  else if id = "less" then some ls.less
  else none

/-- `getLanguageService(document)`: exact dialect match, else log a notice and
fall back to the css engine.  The returned `Option String` is the notice the
caller writes to the operational log. -/
def getLanguageService (ls : LanguageServices) (document : TextDocument) :
    LanguageService × Option String :=
  match ls.lookup document.languageId with
  | some service => (service, none)
  | none =>
      (ls.css, some ("Document type is " ++ document.languageId ++ ", using css instead."))

/-! ### Association-list helpers (string-keyed maps) -/

def lookupA {α : Type} (l : List (String × α)) (k : String) : Option α :=
  (l.find? (fun p => p.1 = k)).map (fun p => p.2)

def eraseA {α : Type} (l : List (String × α)) (k : String) : List (String × α) :=
  l.filter (fun p => ¬ p.1 = k)

/-- Map update: remove any entry for the key, then append the new binding. -/
def setA {α : Type} (l : List (String × α)) (k : String) (v : α) : List (String × α) :=
  eraseA l k ++ [(k, v)]

def filterKey {α : Type} (l : List (String × α)) (k : String) : List (String × α) :=
  l.filter (fun p => p.1 = k)

/-! ### Model cache

`getLanguageModelCache` lives in `src/css/languageModelCache.ts`, which is not
part of the provided sources; the cache below is modelled from the spec. -/

structure CacheEntry where
  version : Nat
  model : Stylesheet
  lastUsedAt : Nat
deriving DecidableEq

/-- Modelled from the spec: the bounded recency-aware language-model cache of
`languageModelCache.ts` (absent from the sources).  `entries` maps document
identity to `{version, model, lastUsedAt}`; `parseCount` counts invocations of
the injected compute function. -/
structure LanguageModelCache where
  entries : List (String × CacheEntry)
  parseCount : Nat
deriving DecidableEq

/-- Key of the entry with the oldest `lastUsedAt` (first one on ties),
paired with that timestamp. -/
def oldestKey : List (String × CacheEntry) → Option (String × Nat)
  | [] => none
  | (k, e) :: rest =>
      match oldestKey rest with
      | none => some (k, e.lastUsedAt)
      | some (k', t') =>
          if e.lastUsedAt ≤ t' then some (k, e.lastUsedAt) else some (k', t')

/-- Evict the single entry with the oldest `lastUsedAt`. -/
def evictStep (l : List (String × CacheEntry)) : List (String × CacheEntry) :=
  match oldestKey l with
  | none => l
  | some (k, _) => eraseA l k

/-- Modelled from the spec: repeatedly evict the oldest entry until the size
is at most the capacity (fuel-bounded recursion). -/
def evictToCapacity : Nat → Nat → List (String × CacheEntry) → List (String × CacheEntry)
  | 0, _, l => l
  | fuel + 1, cap, l =>
      if l.length ≤ cap then l else evictToCapacity fuel cap (evictStep l)

/-- Store an entry for a key, then run the capacity check. -/
def cacheStore (entries : List (String × CacheEntry)) (maxEntries : Nat) (k : String)
    (e : CacheEntry) : List (String × CacheEntry) :=
  evictToCapacity (setA entries k e).length maxEntries (setA entries k e)

/-- Modelled from the spec: the cache miss path — invoke the compute function,
store the fresh model with the current version and timestamp, run the capacity
check.  A compute failure surfaces to the caller and nothing is stored. -/
def cacheMiss (parse : TextDocument → Except String Stylesheet) (maxEntries now : Nat)
    (c : LanguageModelCache) (document : TextDocument) :
    Except String Stylesheet × LanguageModelCache :=
  match parse document with
  | .error e => (.error e, c)
  | .ok m =>
      let stored := cacheStore c.entries maxEntries document.uri
        ({ version := document.version, model := m, lastUsedAt := now })
      (.ok m, { entries := stored, parseCount := c.parseCount + 1 })

/-- Modelled from the spec: `get(document)` — hit when an entry exists for the
identity with the document's current version (return the stored model, refresh
`lastUsedAt`, no recomputation); otherwise the miss path.  Every call runs the
capacity check. -/
def cacheGet (parse : TextDocument → Except String Stylesheet) (maxEntries now : Nat)
    (c : LanguageModelCache) (document : TextDocument) :
    Except String Stylesheet × LanguageModelCache :=
  match lookupA c.entries document.uri with
  | some e =>
      if e.version = document.version then
        let touched := cacheStore c.entries maxEntries document.uri ({ e with lastUsedAt := now })
        (.ok e.model, { c with entries := touched })
      else cacheMiss parse maxEntries now c document
  | none => cacheMiss parse maxEntries now c document

/-- Modelled from the spec: `onDocumentRemoved` drops the entry for the
identity unconditionally. -/
def cacheOnDocumentRemoved (c : LanguageModelCache) (document : TextDocument) :
    LanguageModelCache :=
  { c with entries := eraseA c.entries document.uri }

/-- Modelled from the spec: the periodic age sweep removes entries whose
`lastUsedAt` is older than `maxAgeSeconds` (claims do not exercise it). -/
def cacheCleanup (maxAgeSeconds now : Nat) (c : LanguageModelCache) : LanguageModelCache :=
  { c with entries := c.entries.filter (fun p => now ≤ p.2.lastUsedAt + maxAgeSeconds * 1000) }

/-! ### Server state -/

/-- An armed debounce timer: absolute deadline plus the captured document. -/
structure PendingTimer where
  fireAt : Nat
  doc : TextDocument
deriving DecidableEq

/-- Global mutable state of the server process.  `published` is the
chronological sequence of diagnostic publishes; `validations` records each
invocation of the validation callback with the document it used. -/
structure ServerState where
  time : Nat
  documents : List TextDocument
  stylesheets : LanguageModelCache
  documentSettings : List String
  pendingValidationRequests : List (String × PendingTimer)
  published : List (String × List Diagnostic)
  errorLog : List String
  infoLog : List String
  validations : List TextDocument
  languageServices : LanguageServices

def validationDelayMs : Nat := 200

def logError (s : ServerState) (m : String) : ServerState :=
  { s with errorLog := s.errorLog ++ [m] }

def logInfoOpt (s : ServerState) : Option String → ServerState
  | none => s
  | some m => { s with infoLog := s.infoLog ++ [m] }

/-- `connection.sendDiagnostics` — replaces the diagnostic set for a uri. -/
def sendDiagnostics (s : ServerState) (uri : String) (diagnostics : List Diagnostic) :
    ServerState :=
  { s with published := s.published ++ [(uri, diagnostics)] }

/-- Modelled from the spec: `formatError` of `src/utils/runner.ts` (absent
from the sources) formats a context message with the triggering error. -/
def formatError (message : String) (err : String) : String :=
  message ++ ": " ++ err

/-- `getDocumentSettings` returns `Promise.resolve(void 0)`: it always
resolves with no settings and never rejects. -/
def getDocumentSettings (_document : TextDocument) : Except String (Option LanguageSettings) :=
  .ok none

/-- The compute function injected into the `stylesheets` cache:
`document => getLanguageService(document).parseStylesheet(document)`
(its fallback notice is not tracked on this path). -/
def stylesheetsParse (ls : LanguageServices) (document : TextDocument) :
    Except String Stylesheet :=
  ((getLanguageService ls document).1).parseStylesheet document

/-- `stylesheets.get(document)` acting on the server state. -/
def stylesheetsGet (s : ServerState) (document : TextDocument) :
    Except String Stylesheet × ServerState :=
  let r := cacheGet (stylesheetsParse s.languageServices) 10 s.time s.stylesheets document
  (r.1, { s with stylesheets := r.2 })

/-- `cleanPendingValidation`: if a request is pending for the uri, clear the
timeout and delete the map entry; otherwise do nothing. -/
def cleanPendingValidation (s : ServerState) (textDocument : TextDocument) : ServerState :=
  match lookupA s.pendingValidationRequests textDocument.uri with
  | some _ =>
      { s with pendingValidationRequests := eraseA s.pendingValidationRequests textDocument.uri }
  | none => s

/-- `triggerValidation`: cancel any prior pending request for the uri, then
arm a fresh timer of `validationDelayMs` capturing the document. -/
def triggerValidation (s : ServerState) (textDocument : TextDocument) : ServerState :=
  let s1 := cleanPendingValidation s textDocument
  let armed := setA s1.pendingValidationRequests textDocument.uri
    ({ fireAt := s1.time + validationDelayMs, doc := textDocument })
  { s1 with pendingValidationRequests := armed }

/-- `validateTextDocument`: resolve settings (always resolves), get the model
from the cache, pick the engine, validate, publish.  A throw anywhere inside
the resolution callback rejects the resulting promise with no local handler,
so it surfaces at the process unhandledRejection boundary and is logged as an
`Unhandled exception`; the local rejection handler (which logs
`Error while validating <uri>`) only covers rejection of the settings promise
itself, which never rejects. -/
def validateTextDocument (s : ServerState) (textDocument : TextDocument) : ServerState :=
  match getDocumentSettings textDocument with
  | .error e =>
      logError { s with validations := s.validations ++ [textDocument] }
        (formatError ("Error while validating " ++ textDocument.uri) e)
  | .ok settings =>
      match stylesheetsGet { s with validations := s.validations ++ [textDocument] }
          textDocument with
      | (.error e, s1) => logError s1 (formatError "Unhandled exception" e)
      | (.ok stylesheet, s1) =>
          match (getLanguageService s1.languageServices textDocument).1.doValidation
              textDocument stylesheet settings with
          | .error e =>
              logError (logInfoOpt s1 (getLanguageService s1.languageServices textDocument).2)
                (formatError "Unhandled exception" e)
          | .ok diagnostics =>
              sendDiagnostics (logInfoOpt s1 (getLanguageService s1.languageServices textDocument).2)
                textDocument.uri diagnostics

/-! ### The event-loop timer wheel -/

/-- The earliest due timer (deadline ≤ now), earliest deadline first,
insertion order on ties. -/
def earliestDue (now : Nat) : List (String × PendingTimer) → Option (String × PendingTimer)
  | [] => none
  | (k, pt) :: rest =>
      if pt.fireAt ≤ now then
        match earliestDue now rest with
        | some (k', pt') =>
            if pt.fireAt ≤ pt'.fireAt then some (k, pt) else some (k', pt')
        | none => some (k, pt)
      else earliestDue now rest

/-- Fire due timers one at a time: each firing first deletes its map entry,
then runs the validation callback on the captured document. -/
def fireTimers : Nat → ServerState → ServerState
  | 0, s => s
  | fuel + 1, s =>
      match earliestDue s.time s.pendingValidationRequests with
      | none => s
      | some (uri, pt) =>
          fireTimers fuel
            (validateTextDocument
              { s with pendingValidationRequests := eraseA s.pendingValidationRequests uri }
              pt.doc)

/-- Let `d` milliseconds of wall time pass: advance the clock, then fire every
timer that has become due. -/
def advanceTime (s : ServerState) (d : Nat) : ServerState :=
  let s1 := { s with time := s.time + d }
  fireTimers s1.pendingValidationRequests.length s1

def advanceMany (s : ServerState) (ds : List Nat) : ServerState :=
  ds.foldl advanceTime s

/-! ### Lifecycle events -/

def setDoc (l : List TextDocument) (d : TextDocument) : List TextDocument :=
  l.filter (fun x => ¬ x.uri = d.uri) ++ [d]

def lookupDoc (l : List TextDocument) (uri : String) : Option TextDocument :=
  l.find? (fun d => d.uri = uri)

/-- `documents.onDidChangeContent`: the store holds the new document state and
validation is (re)triggered. -/
def onDidChangeContent (s : ServerState) (document : TextDocument) : ServerState :=
  triggerValidation { s with documents := setDoc s.documents document } document

/-- `documents.onDidClose`, combining the three registered close handlers in
registration order: drop the cache entry, drop the per-document settings
entry, cancel any pending validation and publish an empty diagnostic set.
The store itself forgets the document. -/
def onDidClose (s : ServerState) (document : TextDocument) : ServerState :=
  let s0 := { s with documents := s.documents.filter (fun d => ¬ d.uri = document.uri) }
  let s1 := { s0 with stylesheets := cacheOnDocumentRemoved s0.stylesheets document }
  let s2 := { s1 with documentSettings := s1.documentSettings.filter (fun u => ¬ u = document.uri) }
  let s3 := cleanPendingValidation s2 document
  sendDiagnostics s3 document.uri []

/-- The `Settings` payload of a configuration-change event. -/
structure Settings where
  css : LanguageSettings
  less : LanguageSettings
  scss : LanguageSettings
deriving DecidableEq

/-- `updateConfiguration`: forward each dialect's configuration to its engine,
reset all per-document settings, revalidate every open document. -/
def updateConfiguration (s : ServerState) (settings : Settings) : ServerState :=
  let ls : LanguageServices :=
    { css := s.languageServices.css.configure settings.css,
      scss := s.languageServices.scss.configure settings.scss,
      less := s.languageServices.less.configure settings.less }
  let s1 := { s with languageServices := ls, documentSettings := [] }
  s1.documents.foldl triggerValidation s1

/-! ### Request guard and query handlers -/

/-- Modelled from the spec: `runSafe` of `src/utils/runner.ts` (absent from
the sources) — the uniform failure boundary around every query: a cancelled
request returns the fallback silently; a raised error is formatted with the
error context, logged once, and the fallback is returned. -/
def runSafe {α : Type} (comp : ServerState → Except String α × ServerState) (fallbackValue : α)
    (errorContext : String) (cancelled : Bool) (s : ServerState) : α × ServerState :=
  if cancelled then (fallbackValue, s)
  else
    match comp s with
    | (.ok v, s') => (v, s')
    | (.error e, s') => (fallbackValue, logError s' (formatError errorContext e))

/-- Modelled from the spec: `convertCompleteItems` of `src/utils/convert.ts`
(absent from the sources); result-shape conversion is out of core scope, so
items are carried through unchanged. -/
def convertCompleteItems (items : List CompletionItem) : List CompletionItem :=
  items

def completionComputation (uri : String) (pos : Position) (s : ServerState) :
    Except String (Option CompletionList) × ServerState :=
  match lookupDoc s.documents uri with
  | none => (.ok none, s)
  | some document =>
      let svc := getLanguageService s.languageServices document
      let s1 := logInfoOpt s svc.2
      match stylesheetsGet s1 document with
      | (.error e, s2) => (.error e, s2)
      | (.ok sty, s2) =>
          match svc.1.doComplete document pos sty with
          | .error e => (.error e, s2)
          | .ok result =>
              (.ok (some { isIncomplete := false, items := convertCompleteItems result.items }), s2)

def onCompletion (s : ServerState) (uri : String) (pos : Position) (cancelled : Bool) :
    Option CompletionList × ServerState :=
  runSafe (completionComputation uri pos) none
    ("Error while computing completions for " ++ uri) cancelled s

def hoverComputation (uri : String) (pos : Position) (s : ServerState) :
    Except String (Option Hover) × ServerState :=
  match lookupDoc s.documents uri with
  | none => (.ok none, s)
  | some document =>
      match stylesheetsGet s document with
      | (.error e, s1) => (.error e, s1)
      | (.ok sty, s1) =>
          let svc := getLanguageService s1.languageServices document
          let s2 := logInfoOpt s1 svc.2
          match svc.1.doHover document pos sty with
          | .error e => (.error e, s2)
          | .ok h => (.ok h, s2)

def onHover (s : ServerState) (uri : String) (pos : Position) (cancelled : Bool) :
    Option Hover × ServerState :=
  runSafe (hoverComputation uri pos) none
    ("Error while computing hover for " ++ uri) cancelled s

def documentSymbolComputation (uri : String) (s : ServerState) :
    Except String (List SymbolInformation) × ServerState :=
  match lookupDoc s.documents uri with
  | none => (.ok [], s)
  | some document =>
      match stylesheetsGet s document with
      | (.error e, s1) => (.error e, s1)
      | (.ok sty, s1) =>
          let svc := getLanguageService s1.languageServices document
          let s2 := logInfoOpt s1 svc.2
          match svc.1.findDocumentSymbols document sty with
          | .error e => (.error e, s2)
          | .ok syms => (.ok syms, s2)

def onDocumentSymbol (s : ServerState) (uri : String) (cancelled : Bool) :
    List SymbolInformation × ServerState :=
  runSafe (documentSymbolComputation uri) []
    ("Error while computing document symbols for " ++ uri) cancelled s

def definitionComputation (uri : String) (pos : Position) (s : ServerState) :
    Except String (Option Location) × ServerState :=
  match lookupDoc s.documents uri with
  | none => (.ok none, s)
  | some document =>
      match stylesheetsGet s document with
      | (.error e, s1) => (.error e, s1)
      | (.ok sty, s1) =>
          let svc := getLanguageService s1.languageServices document
          let s2 := logInfoOpt s1 svc.2
          match svc.1.findDefinition document pos sty with
          | .error e => (.error e, s2)
          | .ok loc => (.ok loc, s2)

def onDefinition (s : ServerState) (uri : String) (pos : Position) (cancelled : Bool) :
    Option Location × ServerState :=
  runSafe (definitionComputation uri pos) none
    ("Error while computing definitions for " ++ uri) cancelled s

def documentHighlightComputation (uri : String) (pos : Position) (s : ServerState) :
    Except String (List DocumentHighlight) × ServerState :=
  match lookupDoc s.documents uri with
  | none => (.ok [], s)
  | some document =>
      match stylesheetsGet s document with
      | (.error e, s1) => (.error e, s1)
      | (.ok sty, s1) =>
          let svc := getLanguageService s1.languageServices document
          let s2 := logInfoOpt s1 svc.2
          match svc.1.findDocumentHighlights document pos sty with
          | .error e => (.error e, s2)
          | .ok hs => (.ok hs, s2)

def onDocumentHighlight (s : ServerState) (uri : String) (pos : Position) (cancelled : Bool) :
    List DocumentHighlight × ServerState :=
  runSafe (documentHighlightComputation uri pos) []
    ("Error while computing document highlights for " ++ uri) cancelled s

def referencesComputation (uri : String) (pos : Position) (s : ServerState) :
    Except String (List Location) × ServerState :=
  match lookupDoc s.documents uri with
  | none => (.ok [], s)
  | some document =>
      match stylesheetsGet s document with
      | (.error e, s1) => (.error e, s1)
      | (.ok sty, s1) =>
          let svc := getLanguageService s1.languageServices document
          let s2 := logInfoOpt s1 svc.2
          match svc.1.findReferences document pos sty with
          | .error e => (.error e, s2)
          | .ok refs => (.ok refs, s2)

def onReferences (s : ServerState) (uri : String) (pos : Position) (cancelled : Bool) :
    List Location × ServerState :=
  runSafe (referencesComputation uri pos) []
    ("Error while computing references for " ++ uri) cancelled s

def codeActionComputation (uri : String) (range : Range) (ctx : CodeActionContext)
    (s : ServerState) : Except String (List Command) × ServerState :=
  match lookupDoc s.documents uri with
  | none => (.ok [], s)
  | some document =>
      match stylesheetsGet s document with
      | (.error e, s1) => (.error e, s1)
      | (.ok sty, s1) =>
          let svc := getLanguageService s1.languageServices document
          let s2 := logInfoOpt s1 svc.2
          match svc.1.doCodeActions document range ctx sty with
          | .error e => (.error e, s2)
          | .ok cmds => (.ok cmds, s2)

def onCodeAction (s : ServerState) (uri : String) (range : Range) (ctx : CodeActionContext)
    (cancelled : Bool) : List Command × ServerState :=
  runSafe (codeActionComputation uri range ctx) []
    ("Error while computing code actions for " ++ uri) cancelled s

def renameComputation (uri : String) (pos : Position) (newName : String) (s : ServerState) :
    Except String (Option WorkspaceEdit) × ServerState :=
  match lookupDoc s.documents uri with
  | none => (.ok none, s)
  | some document =>
      match stylesheetsGet s document with
      | (.error e, s1) => (.error e, s1)
      | (.ok sty, s1) =>
          let svc := getLanguageService s1.languageServices document
          let s2 := logInfoOpt s1 svc.2
          match svc.1.doRename document pos newName sty with
          | .error e => (.error e, s2)
          | .ok edit => (.ok edit, s2)

def onRenameRequest (s : ServerState) (uri : String) (pos : Position) (newName : String)
    (cancelled : Bool) : Option WorkspaceEdit × ServerState :=
  runSafe (renameComputation uri pos newName) none
    ("Error while computing renames for " ++ uri) cancelled s

/-! ### Predicates and trace helpers used by the theorems -/

/-- At most one map entry per identity. -/
def atMostOnePer {α : Type} (l : List (String × α)) : Prop :=
  ∀ u, (filterKey l u).length ≤ 1

/-- Every armed timer is registered under the uri of its captured document. -/
def keysConsistent (l : List (String × PendingTimer)) : Prop :=
  ∀ p ∈ l, p.2.doc.uri = p.1

/-- Run a burst of triggers: each step lets some time pass, then calls
`triggerValidation` with a document. -/
def runTriggers : ServerState → List (Nat × TextDocument) → ServerState
  | s, [] => s
  | s, (gap, d) :: rest => runTriggers (triggerValidation (advanceTime s gap) d) rest

/-- The document of the last trigger in a burst (default if the burst is empty). -/
def lastDocOf : TextDocument → List (Nat × TextDocument) → TextDocument
  | d, [] => d
  | _, (_, d') :: rest => lastDocOf d' rest

/-- Substring test on character lists (used to show a log line does not
mention a document identity). -/
def listContainsSub : List Char → List Char → Bool
  | _, [] => true
  | [], _ :: _ => false
  | a :: rest, b :: tail =>
      (List.isPrefixOf (b :: tail) (a :: rest)) || listContainsSub rest (b :: tail)

/-! ### Concrete instances used by witnesses -/

/-- An engine whose computations all succeed with empty results. -/
def okService : LanguageService where
  parseStylesheet := fun _ => .ok { modelId := 0 }
  doValidation := fun _ _ _ => .ok []
  doComplete := fun _ _ _ => .ok { isIncomplete := false, items := [] }
  doHover := fun _ _ _ => .ok none
  findDocumentSymbols := fun _ _ => .ok []
  findDefinition := fun _ _ _ => .ok none
  findDocumentHighlights := fun _ _ _ => .ok []
  findReferences := fun _ _ _ => .ok []
  doCodeActions := fun _ _ _ _ => .ok []
  doRename := fun _ _ _ _ => .ok none
  config := none

/-- An engine that parses fine but whose query and validation computations
all throw. -/
def failService : LanguageService where
  parseStylesheet := fun _ => .ok { modelId := 0 }
  doValidation := fun _ _ _ => .error "boom"
  doComplete := fun _ _ _ => .error "boom"
  doHover := fun _ _ _ => .error "boom"
  findDocumentSymbols := fun _ _ => .error "boom"
  findDefinition := fun _ _ _ => .error "boom"
  findDocumentHighlights := fun _ _ _ => .error "boom"
  findReferences := fun _ _ _ => .error "boom"
  doCodeActions := fun _ _ _ _ => .error "boom"
  doRename := fun _ _ _ _ => .error "boom"
  config := none

def initServices : LanguageServices :=
  { css := okService, scss := okService, less := okService }

def failServices : LanguageServices :=
  { css := failService, scss := okService, less := okService }

def emptyCache : LanguageModelCache :=
  { entries := [], parseCount := 0 }

/-- Fresh server state at process start. -/
def initState : ServerState where
  time := 0
  documents := []
  stylesheets := emptyCache
  documentSettings := []
  pendingValidationRequests := []
  published := []
  errorLog := []
  infoLog := []
  validations := []
  languageServices := initServices

def docA : TextDocument :=
  { uri := "file:///a.css", languageId := "css", version := 1, content := "a color red" }

def docA2 : TextDocument :=
  { uri := "file:///a.css", languageId := "css", version := 2, content := "a color blue" }

def docB : TextDocument :=
  { uri := "file:///b.css", languageId := "css", version := 1, content := "b color green" }

def docU : TextDocument :=
  { uri := "file:///u.txt", languageId := "txt", version := 1, content := "plain text" }

/-- State with one open css document and healthy engines. -/
def stateA : ServerState :=
  { initState with documents := [docA] }

/-- State with one open css document whose engine computations throw. -/
def stateFail : ServerState :=
  { initState with documents := [docA], languageServices := failServices }

/-- A compute function whose model records the parsed document's version. -/
def parseW (d : TextDocument) : Except String Stylesheet :=
  .ok { modelId := d.version }

/-! ### Map lemmas -/

theorem lookupA_cons {α : Type} (p : String × α) (l : List (String × α)) (k : String) :
    lookupA (p :: l) k = if p.1 = k then some p.2 else lookupA l k := by
  by_cases h : p.1 = k <;> simp [lookupA, List.find?_cons, h]

theorem eraseA_cons {α : Type} (p : String × α) (l : List (String × α)) (k : String) :
    eraseA (p :: l) k = if p.1 = k then eraseA l k else p :: eraseA l k := by
  by_cases h : p.1 = k <;> simp [eraseA, List.filter_cons, h]

theorem filterKey_cons {α : Type} (p : String × α) (l : List (String × α)) (k : String) :
    filterKey (p :: l) k = if p.1 = k then p :: filterKey l k else filterKey l k := by
  by_cases h : p.1 = k <;> simp [filterKey, List.filter_cons, h]

theorem mem_of_lookupA {α : Type} {l : List (String × α)} {k : String} {v : α}
    (h : lookupA l k = some v) : (k, v) ∈ l := by
  induction l with
  | nil => simp [lookupA] at h
  | cons p rest ih =>
      rw [lookupA_cons] at h
      by_cases hp : p.1 = k
      · rw [if_pos hp] at h
        injection h with h2
        have hpv : p = (k, v) := Prod.ext hp h2
        rw [hpv]
        exact List.mem_cons_self _ _
      · rw [if_neg hp] at h
        exact List.mem_cons_of_mem _ (ih h)

theorem eraseA_key_ne {α : Type} {l : List (String × α)} {k : String} :
    ∀ p ∈ eraseA l k, p.1 ≠ k := by
  intro p hp
  have := List.of_mem_filter hp
  simpa using this

theorem eraseA_sublist {α : Type} (l : List (String × α)) (k : String) :
    (eraseA l k).Sublist l :=
  List.filter_sublist l

theorem lookupA_eraseA_self {α : Type} (l : List (String × α)) (k : String) :
    lookupA (eraseA l k) k = none := by
  induction l with
  | nil => rfl
  | cons p rest ih =>
      rw [eraseA_cons]
      by_cases hp : p.1 = k
      · simpa [hp] using ih
      · rw [if_neg hp, lookupA_cons, if_neg hp]
        exact ih

theorem lookupA_eraseA_ne {α : Type} (l : List (String × α)) {k k' : String} (h : k' ≠ k) :
    lookupA (eraseA l k) k' = lookupA l k' := by
  induction l with
  | nil => rfl
  | cons p rest ih =>
      rw [eraseA_cons, lookupA_cons]
      by_cases hp : p.1 = k
      · have hne : ¬ p.1 = k' := by
          rw [hp]
          exact fun hc => h hc.symm
        rw [if_pos hp, if_neg hne]
        exact ih
      · rw [if_neg hp, lookupA_cons]
        by_cases hq : p.1 = k' <;> simp [hq, ih]

theorem lookupA_append_right {α : Type} {l : List (String × α)} {k : String} (v : α)
    (h : ∀ p ∈ l, p.1 ≠ k) : lookupA (l ++ [(k, v)]) k = some v := by
  induction l with
  | nil => simp [lookupA, List.find?]
  | cons p rest ih =>
      rw [List.cons_append, lookupA_cons, if_neg (h p (List.mem_cons_self p rest))]
      exact ih fun q hq => h q (List.mem_cons_of_mem _ hq)

theorem lookupA_setA_self {α : Type} (l : List (String × α)) (k : String) (v : α) :
    lookupA (setA l k v) k = some v :=
  lookupA_append_right v eraseA_key_ne

theorem lookupA_append_left {α : Type} {l l' : List (String × α)} {k : String}
    (h : ∀ p ∈ l', p.1 ≠ k) : lookupA (l ++ l') k = lookupA l k := by
  induction l with
  | nil =>
      simp only [List.nil_append]
      induction l' with
      | nil => rfl
      | cons q rest ih' =>
          rw [lookupA_cons, if_neg (h q (List.mem_cons_self q rest))]
          exact ih' fun p hp => h p (List.mem_cons_of_mem _ hp)
  | cons p rest ih =>
      rw [List.cons_append, lookupA_cons, lookupA_cons]
      by_cases hp : p.1 = k
      · rw [if_pos hp, if_pos hp]
      · rw [if_neg hp, if_neg hp]
        exact ih

theorem lookupA_setA_ne {α : Type} (l : List (String × α)) {k k' : String} (v : α)
    (h : k' ≠ k) : lookupA (setA l k v) k' = lookupA l k' := by
  unfold setA
  rw [lookupA_append_left (by intro p hp; simp at hp; subst hp; exact fun hc => h hc.symm)]
  exact lookupA_eraseA_ne l h

theorem length_eraseA_lt {α : Type} {l : List (String × α)} {k : String} {v : α}
    (h : (k, v) ∈ l) : (eraseA l k).length < l.length := by
  apply List.length_filter_lt_length_iff_exists.mpr
  exact ⟨(k, v), h, by simp⟩

theorem filterKey_append {α : Type} (l l' : List (String × α)) (k : String) :
    filterKey (l ++ l') k = filterKey l k ++ filterKey l' k := by
  simp [filterKey, List.filter_append]

theorem filterKey_eraseA_self {α : Type} (l : List (String × α)) (k : String) :
    filterKey (eraseA l k) k = [] := by
  induction l with
  | nil => rfl
  | cons p rest ih =>
      rw [eraseA_cons]
      by_cases hp : p.1 = k
      · simpa [hp] using ih
      · rw [if_neg hp, filterKey_cons, if_neg hp]
        exact ih

theorem filterKey_eraseA_ne {α : Type} (l : List (String × α)) {k k' : String} (h : k' ≠ k) :
    filterKey (eraseA l k) k' = filterKey l k' := by
  induction l with
  | nil => rfl
  | cons p rest ih =>
      rw [eraseA_cons, filterKey_cons]
      by_cases hp : p.1 = k
      · have hne : ¬ p.1 = k' := by
          rw [hp]
          exact fun hc => h hc.symm
        rw [if_pos hp, if_neg hne]
        exact ih
      · rw [if_neg hp, filterKey_cons]
        by_cases hq : p.1 = k' <;> simp [hq, ih]

theorem filterKey_setA_self {α : Type} (l : List (String × α)) (k : String) (v : α) :
    filterKey (setA l k v) k = [(k, v)] := by
  unfold setA
  rw [filterKey_append, filterKey_eraseA_self]
  simp [filterKey, List.filter_cons]

theorem filterKey_setA_ne {α : Type} (l : List (String × α)) {k k' : String} (v : α)
    (h : k' ≠ k) : filterKey (setA l k v) k' = filterKey l k' := by
  unfold setA
  rw [filterKey_append, filterKey_eraseA_ne l h]
  have hkk : ¬ k = k' := fun hc => h hc.symm
  have : filterKey [(k, v)] k' = [] := by
    simp [filterKey, List.filter_cons, hkk]
  rw [this, List.append_nil]

theorem lookupA_of_filterKey_single {α : Type} {l : List (String × α)} {k : String} {v : α}
    (h : filterKey l k = [(k, v)]) : lookupA l k = some v := by
  induction l with
  | nil => simp [filterKey] at h
  | cons p rest ih =>
      rw [filterKey_cons] at h
      rw [lookupA_cons]
      by_cases hp : p.1 = k
      · rw [if_pos hp] at h
        rw [if_pos hp]
        have hpv := List.head_eq_of_cons_eq h
        rw [hpv]
      · rw [if_neg hp] at h
        rw [if_neg hp]
        exact ih h

theorem filterKey_eq_nil_of_lookupA_none {α : Type} {l : List (String × α)} {k : String}
    (h : lookupA l k = none) : filterKey l k = [] := by
  induction l with
  | nil => rfl
  | cons p rest ih =>
      rw [lookupA_cons] at h
      rw [filterKey_cons]
      by_cases hp : p.1 = k
      · simp [hp] at h
      · rw [if_neg hp]
        rw [if_neg hp] at h
        exact ih h

theorem lookupA_none_of_filterKey_nil {α : Type} {l : List (String × α)} {k : String}
    (h : filterKey l k = []) : lookupA l k = none := by
  induction l with
  | nil => rfl
  | cons p rest ih =>
      rw [filterKey_cons] at h
      rw [lookupA_cons]
      by_cases hp : p.1 = k
      · simp [hp] at h
      · rw [if_neg hp]
        rw [if_neg hp] at h
        exact ih h

theorem mem_filterKey_iff {α : Type} {l : List (String × α)} {k : String} {p : String × α} :
    p ∈ filterKey l k ↔ p ∈ l ∧ p.1 = k := by
  simp [filterKey, List.mem_filter]

theorem eraseA_of_lookupA_none {α : Type} {l : List (String × α)} {k : String}
    (h : lookupA l k = none) : eraseA l k = l := by
  induction l with
  | nil => rfl
  | cons p rest ih =>
      rw [lookupA_cons] at h
      rw [eraseA_cons]
      by_cases hp : p.1 = k
      · simp [hp] at h
      · rw [if_neg hp]
        rw [if_neg hp] at h
        rw [ih h]

theorem eraseA_idem {α : Type} (l : List (String × α)) (k : String) :
    eraseA (eraseA l k) k = eraseA l k := by
  apply List.filter_eq_self.mpr
  intro p hp
  simpa using eraseA_key_ne p hp

/-! ### Canonical forms and frame lemmas for the scheduler operations -/

theorem cleanPendingValidation_eq (s : ServerState) (d : TextDocument) :
    cleanPendingValidation s d =
      { s with pendingValidationRequests := eraseA s.pendingValidationRequests d.uri } := by
  unfold cleanPendingValidation
  cases h : lookupA s.pendingValidationRequests d.uri with
  | none => simp [eraseA_of_lookupA_none h]
  | some pt => rfl

theorem triggerValidation_eq (s : ServerState) (d : TextDocument) :
    triggerValidation s d =
      { s with pendingValidationRequests := (setA s.pendingValidationRequests d.uri
          { fireAt := s.time + validationDelayMs, doc := d }) } := by
  simp [triggerValidation, cleanPendingValidation_eq, setA, eraseA_idem]

theorem triggerValidation_lookup_self (s : ServerState) (d : TextDocument) :
    lookupA (triggerValidation s d).pendingValidationRequests d.uri =
      some ({ fireAt := s.time + validationDelayMs, doc := d }) := by
  rw [triggerValidation_eq]
  exact lookupA_setA_self _ _ _

theorem triggerValidation_lookup_isSome (s : ServerState) (d : TextDocument) (u : String)
    (h : (lookupA s.pendingValidationRequests u).isSome) :
    (lookupA (triggerValidation s d).pendingValidationRequests u).isSome := by
  rw [triggerValidation_eq]
  by_cases hu : u = d.uri
  · subst hu
    rw [lookupA_setA_self]
    rfl
  · rw [lookupA_setA_ne _ _ hu]
    exact h

theorem foldl_trig_stylesheets (docs : List TextDocument) (s : ServerState) :
    (docs.foldl triggerValidation s).stylesheets = s.stylesheets := by
  induction docs generalizing s with
  | nil => rfl
  | cons d rest ih =>
      rw [List.foldl_cons, ih, triggerValidation_eq]

theorem foldl_trig_documentSettings (docs : List TextDocument) (s : ServerState) :
    (docs.foldl triggerValidation s).documentSettings = s.documentSettings := by
  induction docs generalizing s with
  | nil => rfl
  | cons d rest ih =>
      rw [List.foldl_cons, ih, triggerValidation_eq]

theorem foldl_trig_languageServices (docs : List TextDocument) (s : ServerState) :
    (docs.foldl triggerValidation s).languageServices = s.languageServices := by
  induction docs generalizing s with
  | nil => rfl
  | cons d rest ih =>
      rw [List.foldl_cons, ih, triggerValidation_eq]

theorem foldl_trig_isSome (docs : List TextDocument) (s : ServerState) (u : String)
    (h : (lookupA s.pendingValidationRequests u).isSome) :
    (lookupA (docs.foldl triggerValidation s).pendingValidationRequests u).isSome := by
  induction docs generalizing s with
  | nil => exact h
  | cons d rest ih =>
      rw [List.foldl_cons]
      exact ih _ (triggerValidation_lookup_isSome s d u h)

theorem foldl_trig_covers (docs : List TextDocument) (s : ServerState) :
    ∀ d ∈ docs, (lookupA (docs.foldl triggerValidation s).pendingValidationRequests d.uri).isSome := by
  induction docs generalizing s with
  | nil => intro d hd; simp at hd
  | cons d0 rest ih =>
      intro d hd
      rw [List.foldl_cons]
      rcases List.mem_cons.mp hd with h | h
      · subst h
        apply foldl_trig_isSome
        rw [triggerValidation_lookup_self]
        rfl
      · exact ih _ d h

/-! ### Claims C9, C6, C4, C7 -/

/-- C9: calling `cleanPendingValidation` for a document with no pending
validation timer is a no-op: it does not fail and leaves the
pending-validation map (indeed the whole state) unchanged. -/
theorem claim_C9 (s : ServerState) (d : TextDocument)
    (h : lookupA s.pendingValidationRequests d.uri = none) :
    cleanPendingValidation s d = s := by
  unfold cleanPendingValidation
  simp [h]

theorem claim_C9_witness : cleanPendingValidation initState docA = initState :=
  claim_C9 initState docA rfl

/-- C6: engine selection never fails and never returns nothing — an exact
dialect match returns the registered engine with no notice, and an
unregistered dialect logs a diagnostic notice and returns the default css
engine. -/
theorem claim_C6 (ls : LanguageServices) (d : TextDocument) :
    (∀ svc, ls.lookup d.languageId = some svc → getLanguageService ls d = (svc, none)) ∧
    (ls.lookup d.languageId = none →
      getLanguageService ls d =
        (ls.css, some ("Document type is " ++ d.languageId ++ ", using css instead."))) := by
  constructor
  · intro svc h
    simp [getLanguageService, h]
  · intro h
    simp [getLanguageService, h]

theorem claim_C6_witness :
    getLanguageService initServices docU =
      (initServices.css, some ("Document type is " ++ docU.languageId ++ ", using css instead.")) :=
  (claim_C6 initServices docU).2 rfl

/-- C4: after `triggerValidation` or `cleanPendingValidation` returns, the
pending-validation map holds at most one timer per identity;
`triggerValidation` first cancels the prior timer (the cleaned map holds none
for the identity) before arming the new one, which is then the identity's
unique entry. -/
theorem claim_C4 (s : ServerState) (d : TextDocument)
    (h : atMostOnePer s.pendingValidationRequests) :
    atMostOnePer (triggerValidation s d).pendingValidationRequests ∧
    atMostOnePer (cleanPendingValidation s d).pendingValidationRequests ∧
    lookupA (cleanPendingValidation s d).pendingValidationRequests d.uri = none ∧
    triggerValidation s d =
      { cleanPendingValidation s d with
          pendingValidationRequests := (setA
            (cleanPendingValidation s d).pendingValidationRequests d.uri
            { fireAt := s.time + validationDelayMs, doc := d }) } ∧
    filterKey (triggerValidation s d).pendingValidationRequests d.uri =
      [(d.uri, { fireAt := s.time + validationDelayMs, doc := d })] := by
  refine ⟨?_, ?_, ?_, ?_, ?_⟩
  · intro u
    rw [triggerValidation_eq]
    by_cases hu : u = d.uri
    · subst hu
      simp [filterKey_setA_self]
    · rw [filterKey_setA_ne _ _ hu]
      exact h u
  · intro u
    rw [cleanPendingValidation_eq]
    by_cases hu : u = d.uri
    · subst hu
      simp [filterKey_eraseA_self]
    · rw [filterKey_eraseA_ne _ hu]
      exact h u
  · rw [cleanPendingValidation_eq]
    exact lookupA_eraseA_self _ _
  · rw [triggerValidation_eq, cleanPendingValidation_eq]
    simp [setA, eraseA_idem]
  · rw [triggerValidation_eq]
    exact filterKey_setA_self _ _ _

theorem claim_C4_witness :
    atMostOnePer (triggerValidation initState docA).pendingValidationRequests ∧
    filterKey (triggerValidation initState docA).pendingValidationRequests docA.uri =
      [(docA.uri, { fireAt := validationDelayMs, doc := docA })] := by
  have h := claim_C4 initState docA (by intro u; simp [initState, filterKey])
  exact ⟨h.1, h.2.2.2.2⟩

/-- C7: a settings-update forwards each dialect's configuration to its
registered engine, resets the per-document-settings cache to empty, leaves
the model cache's entries unchanged, and arms a validation timer for every
currently open document. -/
theorem claim_C7 (s : ServerState) (settings : Settings) :
    (updateConfiguration s settings).languageServices =
      { css := s.languageServices.css.configure settings.css,
        scss := s.languageServices.scss.configure settings.scss,
        less := s.languageServices.less.configure settings.less } ∧
    (updateConfiguration s settings).documentSettings = [] ∧
    (updateConfiguration s settings).stylesheets = s.stylesheets ∧
    ∀ d ∈ s.documents,
      (lookupA (updateConfiguration s settings).pendingValidationRequests d.uri).isSome := by
  unfold updateConfiguration
  refine ⟨?_, ?_, ?_, ?_⟩
  · rw [foldl_trig_languageServices]
  · rw [foldl_trig_documentSettings]
  · rw [foldl_trig_stylesheets]
  · intro d hd
    exact foldl_trig_covers _ _ d hd

theorem claim_C7_witness :
    (updateConfiguration stateA ({ css := { options := [] }, less := { options := [] }, scss := { options := [] } })).documentSettings = [] ∧
    (lookupA (updateConfiguration stateA ({ css := { options := [] }, less := { options := [] }, scss := { options := [] } })).pendingValidationRequests docA.uri).isSome := by
  have h := claim_C7 stateA ({ css := { options := [] }, less := { options := [] }, scss := { options := [] } })
  refine ⟨h.2.1, h.2.2.2 docA ?_⟩
  show docA ∈ [docA]
  simp

/-! ### Claims C10 and C5: the query handlers -/

/-- C10: when the document store has no document for the requested identity,
every query handler returns its fallback (null for completion, hover,
definition, rename; an empty list for symbols, highlights, references, code
actions) and leaves the state untouched — no engine method runs and no error
is logged. -/
theorem claim_C10 (s : ServerState) (uri : String) (pos : Position) (range : Range)
    (ctx : CodeActionContext) (newName : String)
    (h : lookupDoc s.documents uri = none) :
    onCompletion s uri pos false = (none, s) ∧
    onHover s uri pos false = (none, s) ∧
    onDocumentSymbol s uri false = ([], s) ∧
    onDefinition s uri pos false = (none, s) ∧
    onDocumentHighlight s uri pos false = ([], s) ∧
    onReferences s uri pos false = ([], s) ∧
    onCodeAction s uri range ctx false = ([], s) ∧
    onRenameRequest s uri pos newName false = (none, s) := by
  refine ⟨?_, ?_, ?_, ?_, ?_, ?_, ?_, ?_⟩
  · simp [onCompletion, runSafe, completionComputation, h]
  · simp [onHover, runSafe, hoverComputation, h]
  · simp [onDocumentSymbol, runSafe, documentSymbolComputation, h]
  · simp [onDefinition, runSafe, definitionComputation, h]
  · simp [onDocumentHighlight, runSafe, documentHighlightComputation, h]
  · simp [onReferences, runSafe, referencesComputation, h]
  · simp [onCodeAction, runSafe, codeActionComputation, h]
  · simp [onRenameRequest, runSafe, renameComputation, h]

theorem claim_C10_witness :
    onCompletion initState "file:///a.css" { line := 0, character := 0 } false = (none, initState) ∧
    onHover initState "file:///a.css" { line := 0, character := 0 } false = (none, initState) ∧
    onDocumentSymbol initState "file:///a.css" false = ([], initState) ∧
    onDefinition initState "file:///a.css" { line := 0, character := 0 } false = (none, initState) ∧
    onDocumentHighlight initState "file:///a.css" { line := 0, character := 0 } false = ([], initState) ∧
    onReferences initState "file:///a.css" { line := 0, character := 0 } false = ([], initState) ∧
    onCodeAction initState "file:///a.css"
      { startPos := { line := 0, character := 0 }, endPos := { line := 0, character := 0 } }
      { diagnostics := [] } false = ([], initState) ∧
    onRenameRequest initState "file:///a.css" { line := 0, character := 0 } "y" false =
      (none, initState) :=
  claim_C10 initState "file:///a.css" { line := 0, character := 0 }
    { startPos := { line := 0, character := 0 }, endPos := { line := 0, character := 0 } }
    { diagnostics := [] } "y" rfl

/-- C5: for every query kind, when the underlying engine computation throws,
the handler returns the configured fallback (null or empty list) and logs
exactly one error formatted with the query's error context. -/
theorem claim_C5 (s : ServerState) (uri : String) (pos : Position) (range : Range)
    (ctx : CodeActionContext) (newName : String) (d : TextDocument)
    (hdoc : lookupDoc s.documents uri = some d) :
    (∀ sty s' e,
      stylesheetsGet (logInfoOpt s (getLanguageService s.languageServices d).2) d = (.ok sty, s') →
      (getLanguageService s.languageServices d).1.doComplete d pos sty = .error e →
      onCompletion s uri pos false =
        (none, logError s' (formatError ("Error while computing completions for " ++ uri) e))) ∧
    (∀ sty s' e,
      stylesheetsGet s d = (.ok sty, s') →
      (getLanguageService s'.languageServices d).1.doHover d pos sty = .error e →
      onHover s uri pos false =
        (none, logError (logInfoOpt s' (getLanguageService s'.languageServices d).2)
          (formatError ("Error while computing hover for " ++ uri) e))) ∧
    (∀ sty s' e,
      stylesheetsGet s d = (.ok sty, s') →
      (getLanguageService s'.languageServices d).1.findDocumentSymbols d sty = .error e →
      onDocumentSymbol s uri false =
        ([], logError (logInfoOpt s' (getLanguageService s'.languageServices d).2)
          (formatError ("Error while computing document symbols for " ++ uri) e))) ∧
    (∀ sty s' e,
      stylesheetsGet s d = (.ok sty, s') →
      (getLanguageService s'.languageServices d).1.findDefinition d pos sty = .error e →
      onDefinition s uri pos false =
        (none, logError (logInfoOpt s' (getLanguageService s'.languageServices d).2)
          (formatError ("Error while computing definitions for " ++ uri) e))) ∧
    (∀ sty s' e,
      stylesheetsGet s d = (.ok sty, s') →
      (getLanguageService s'.languageServices d).1.findDocumentHighlights d pos sty = .error e →
      onDocumentHighlight s uri pos false =
        ([], logError (logInfoOpt s' (getLanguageService s'.languageServices d).2)
          (formatError ("Error while computing document highlights for " ++ uri) e))) ∧
    (∀ sty s' e,
      stylesheetsGet s d = (.ok sty, s') →
      (getLanguageService s'.languageServices d).1.findReferences d pos sty = .error e →
      onReferences s uri pos false =
        ([], logError (logInfoOpt s' (getLanguageService s'.languageServices d).2)
          (formatError ("Error while computing references for " ++ uri) e))) ∧
    (∀ sty s' e,
      stylesheetsGet s d = (.ok sty, s') →
      (getLanguageService s'.languageServices d).1.doCodeActions d range ctx sty = .error e →
      onCodeAction s uri range ctx false =
        ([], logError (logInfoOpt s' (getLanguageService s'.languageServices d).2)
          (formatError ("Error while computing code actions for " ++ uri) e))) ∧
    (∀ sty s' e,
      stylesheetsGet s d = (.ok sty, s') →
      (getLanguageService s'.languageServices d).1.doRename d pos newName sty = .error e →
      onRenameRequest s uri pos newName false =
        (none, logError (logInfoOpt s' (getLanguageService s'.languageServices d).2)
          (formatError ("Error while computing renames for " ++ uri) e))) := by
  refine ⟨?_, ?_, ?_, ?_, ?_, ?_, ?_, ?_⟩ <;> intro sty s' e hget herr
  · simp [onCompletion, runSafe, completionComputation, hdoc, hget, herr]
  · simp [onHover, runSafe, hoverComputation, hdoc, hget, herr]
  · simp [onDocumentSymbol, runSafe, documentSymbolComputation, hdoc, hget, herr]
  · simp [onDefinition, runSafe, definitionComputation, hdoc, hget, herr]
  · simp [onDocumentHighlight, runSafe, documentHighlightComputation, hdoc, hget, herr]
  · simp [onReferences, runSafe, referencesComputation, hdoc, hget, herr]
  · simp [onCodeAction, runSafe, codeActionComputation, hdoc, hget, herr]
  · simp [onRenameRequest, runSafe, renameComputation, hdoc, hget, herr]

theorem claim_C5_witness :
    (onCompletion stateFail docA.uri { line := 0, character := 0 } false).1 = none ∧
    (onCompletion stateFail docA.uri { line := 0, character := 0 } false).2.errorLog =
      ["Error while computing completions for file:///a.css: boom"] ∧
    (onHover stateFail docA.uri { line := 0, character := 0 } false).1 = none ∧
    (onHover stateFail docA.uri { line := 0, character := 0 } false).2.errorLog =
      ["Error while computing hover for file:///a.css: boom"] ∧
    (onDocumentSymbol stateFail docA.uri false).1 = [] ∧
    (onDocumentSymbol stateFail docA.uri false).2.errorLog =
      ["Error while computing document symbols for file:///a.css: boom"] ∧
    (onDefinition stateFail docA.uri { line := 0, character := 0 } false).1 = none ∧
    (onDefinition stateFail docA.uri { line := 0, character := 0 } false).2.errorLog =
      ["Error while computing definitions for file:///a.css: boom"] ∧
    (onDocumentHighlight stateFail docA.uri { line := 0, character := 0 } false).1 = [] ∧
    (onDocumentHighlight stateFail docA.uri { line := 0, character := 0 } false).2.errorLog =
      ["Error while computing document highlights for file:///a.css: boom"] ∧
    (onReferences stateFail docA.uri { line := 0, character := 0 } false).1 = [] ∧
    (onReferences stateFail docA.uri { line := 0, character := 0 } false).2.errorLog =
      ["Error while computing references for file:///a.css: boom"] ∧
    (onCodeAction stateFail docA.uri
      { startPos := { line := 0, character := 0 }, endPos := { line := 0, character := 0 } }
      { diagnostics := [] } false).1 = [] ∧
    (onCodeAction stateFail docA.uri
      { startPos := { line := 0, character := 0 }, endPos := { line := 0, character := 0 } }
      { diagnostics := [] } false).2.errorLog =
      ["Error while computing code actions for file:///a.css: boom"] ∧
    (onRenameRequest stateFail docA.uri { line := 0, character := 0 } "y" false).1 = none ∧
    (onRenameRequest stateFail docA.uri { line := 0, character := 0 } "y" false).2.errorLog =
      ["Error while computing renames for file:///a.css: boom"] := by
  obtain ⟨h1, h2, h3, h4, h5, h6, h7, h8⟩ :=
    claim_C5 stateFail docA.uri { line := 0, character := 0 }
      { startPos := { line := 0, character := 0 }, endPos := { line := 0, character := 0 } }
      { diagnostics := [] } "y" docA rfl
  refine ⟨?_, ?_, ?_, ?_, ?_, ?_, ?_, ?_, ?_, ?_, ?_, ?_, ?_, ?_, ?_, ?_⟩
  · rw [h1 _ _ _ rfl rfl] <;> rfl
  · rw [h1 _ _ _ rfl rfl] <;> rfl
  · rw [h2 _ _ _ rfl rfl] <;> rfl
  · rw [h2 _ _ _ rfl rfl] <;> rfl
  · rw [h3 _ _ _ rfl rfl] <;> rfl
  · rw [h3 _ _ _ rfl rfl] <;> rfl
  · rw [h4 _ _ _ rfl rfl] <;> rfl
  · rw [h4 _ _ _ rfl rfl] <;> rfl
  · rw [h5 _ _ _ rfl rfl] <;> rfl
  · rw [h5 _ _ _ rfl rfl] <;> rfl
  · rw [h6 _ _ _ rfl rfl] <;> rfl
  · rw [h6 _ _ _ rfl rfl] <;> rfl
  · rw [h7 _ _ _ rfl rfl] <;> rfl
  · rw [h7 _ _ _ rfl rfl] <;> rfl
  · rw [h8 _ _ _ rfl rfl] <;> rfl
  · rw [h8 _ _ _ rfl rfl] <;> rfl

/-! ### Claim C8: validation failure containment -/

theorem logInfoOpt_published (s : ServerState) (o : Option String) :
    (logInfoOpt s o).published = s.published := by
  cases o <;> rfl

theorem logInfoOpt_errorLog (s : ServerState) (o : Option String) :
    (logInfoOpt s o).errorLog = s.errorLog := by
  cases o <;> rfl

theorem logInfoOpt_pending (s : ServerState) (o : Option String) :
    (logInfoOpt s o).pendingValidationRequests = s.pendingValidationRequests := by
  cases o <;> rfl

theorem logInfoOpt_validations (s : ServerState) (o : Option String) :
    (logInfoOpt s o).validations = s.validations := by
  cases o <;> rfl

theorem logInfoOpt_time (s : ServerState) (o : Option String) :
    (logInfoOpt s o).time = s.time := by
  cases o <;> rfl

/-- C8 counterexample: with an engine whose validation computation throws, the
validation pass publishes nothing (that half of the claim holds), but the
single error logged is the process-boundary `Unhandled exception` line, which
does not mention the document's identity — refuting "caught inside the
validation callback and logged with the document's identity".  The local
rejection handler carrying the identity only covers the settings promise,
which never rejects. -/
theorem claim_C8_counterexample :
    (validateTextDocument stateFail docA).published = [] ∧
    (validateTextDocument stateFail docA).errorLog = ["Unhandled exception: boom"] ∧
    listContainsSub ("Unhandled exception: boom").data docA.uri.data = false := by
  refine ⟨rfl, rfl, by decide⟩

/-- C8 (amended): if a validation pass fails (the validation computation
raises), no diagnostics publish occurs for that pass — the previously
published diagnostic set is left unchanged — and the failure is caught at the
process-level unhandled-rejection boundary and logged exactly once as an
`Unhandled exception` (not inside the validation callback, and without the
document's identity). -/
theorem claim_C8 (s : ServerState) (d : TextDocument) (sty : Stylesheet) (s' : ServerState)
    (e : String)
    (hget : stylesheetsGet { s with validations := s.validations ++ [d] } d = (.ok sty, s'))
    (hval : (getLanguageService s'.languageServices d).1.doValidation d sty none = .error e) :
    (validateTextDocument s d).published = s.published ∧
    (validateTextDocument s d).errorLog = s.errorLog ++ [formatError "Unhandled exception" e] := by
  have hs' : s'.published = s.published ∧ s'.errorLog = s.errorLog := by
    have h2 := congrArg Prod.snd hget
    simp only [stylesheetsGet] at h2
    constructor
    · rw [← h2]
    · rw [← h2]
  constructor
  · simp only [validateTextDocument, getDocumentSettings, hget, hval, logError,
      logInfoOpt_published]
    exact hs'.1
  · simp only [validateTextDocument, getDocumentSettings, hget, hval, logError,
      logInfoOpt_errorLog]
    rw [hs'.2]

theorem claim_C8_witness :
    (validateTextDocument stateFail docA).published = stateFail.published ∧
    (validateTextDocument stateFail docA).errorLog =
      stateFail.errorLog ++ [formatError "Unhandled exception" "boom"] :=
  claim_C8 stateFail docA { modelId := 0 } _ "boom" rfl rfl

/-! ### Claim C2: the model cache -/

theorem oldestKey_append_pick (x : String × CacheEntry) :
    ∀ l : List (String × CacheEntry), l ≠ [] →
      (∀ p ∈ l, p.2.lastUsedAt ≤ x.2.lastUsedAt) →
      ∃ k t e, oldestKey (l ++ [x]) = some (k, t) ∧ (k, e) ∈ l := by
  intro l
  induction l with
  | nil => intro h _; exact absurd rfl h
  | cons p rest ih =>
      intro _ hm
      cases rest with
      | nil =>
          have hp := hm p (List.mem_singleton_self p)
          refine ⟨p.1, p.2.lastUsedAt, p.2, ?_, ?_⟩
          · simp [oldestKey, hp]
          · exact List.mem_singleton_self _
      | cons q rest' =>
          obtain ⟨k, t, e, hok, hmem⟩ :=
            ih (by simp) (fun r hr => hm r (List.mem_cons_of_mem _ hr))
          obtain ⟨pk, pe⟩ := p
          rw [List.cons_append] at hok
          by_cases hple : pe.lastUsedAt ≤ t
          · refine ⟨pk, pe.lastUsedAt, pe, ?_, List.mem_cons_self _ _⟩
            simp only [List.cons_append]
            rw [oldestKey, hok]
            simp [hple]
          · refine ⟨k, t, e, ?_, List.mem_cons_of_mem _ hmem⟩
            simp only [List.cons_append]
            rw [oldestKey, hok]
            simp [hple]

theorem evictToCapacity_keeps_last :
    ∀ (fuel cap : Nat) (l : List (String × CacheEntry)) (x : String × CacheEntry),
      1 ≤ cap →
      (∀ p ∈ l, p.2.lastUsedAt ≤ x.2.lastUsedAt) →
      (∀ p ∈ l, p.1 ≠ x.1) →
      ∃ l', evictToCapacity fuel cap (l ++ [x]) = l' ++ [x] ∧ ∀ p ∈ l', p.1 ≠ x.1 := by
  intro fuel
  induction fuel with
  | zero => intro cap l x _ _ hk; exact ⟨l, rfl, hk⟩
  | succ n ih =>
      intro cap l x hcap hm hk
      by_cases hlen : (l ++ [x]).length ≤ cap
      · exact ⟨l, by simp only [evictToCapacity, if_pos hlen], hk⟩
      · have hl_ne : l ≠ [] := by
          intro h0
          subst h0
          simp at hlen
          omega
        obtain ⟨k, t, e, hok, hmem⟩ := oldestKey_append_pick x l hl_ne hm
        have hkx : k ≠ x.1 := hk (k, e) hmem
        have hstep1 : evictStep (l ++ [x]) = eraseA (l ++ [x]) k := by
          unfold evictStep
          rw [hok]
        have hstep : evictStep (l ++ [x]) = eraseA l k ++ [x] := by
          rw [hstep1]
          unfold eraseA
          rw [List.filter_append]
          congr 1
          simp [List.filter_cons, Ne.symm hkx]
        have hred : evictToCapacity (n + 1) cap (l ++ [x]) =
            evictToCapacity n cap (evictStep (l ++ [x])) := by
          simp only [evictToCapacity, if_neg hlen]
        rw [hred, hstep]
        exact ih cap (eraseA l k) x hcap
          (fun p hp => hm p (List.mem_of_mem_filter hp))
          (fun p hp => hk p (List.mem_of_mem_filter hp))

theorem cacheStore_lookup (entries : List (String × CacheEntry)) (maxEntries : Nat)
    (k : String) (e : CacheEntry) (hcap : 1 ≤ maxEntries)
    (hm : ∀ p ∈ entries, p.2.lastUsedAt ≤ e.lastUsedAt) :
    lookupA (cacheStore entries maxEntries k e) k = some e := by
  unfold cacheStore setA
  obtain ⟨l', heq, hk'⟩ :=
    evictToCapacity_keeps_last (eraseA entries k ++ [(k, e)]).length maxEntries
      (eraseA entries k) (k, e) hcap
      (fun p hp => hm p (List.mem_of_mem_filter hp))
      (fun p hp => eraseA_key_ne p hp)
  rw [heq]
  exact lookupA_append_right e hk'

/-- The cache hit path: an entry with the document's current version returns
the stored model with no recomputation, only refreshing its recency. -/
theorem cacheGet_hit (parse : TextDocument → Except String Stylesheet) (maxEntries now : Nat)
    (c : LanguageModelCache) (d : TextDocument) (e : CacheEntry)
    (hl : lookupA c.entries d.uri = some e) (hv : e.version = d.version) :
    cacheGet parse maxEntries now c d =
      (.ok e.model,
        { c with entries := cacheStore c.entries maxEntries d.uri ({ e with lastUsedAt := now }) }) := by
  simp [cacheGet, hl, hv]

theorem cacheMiss_ok (parse : TextDocument → Except String Stylesheet) (maxEntries now : Nat)
    (c c1 : LanguageModelCache) (d : TextDocument) (m : Stylesheet)
    (h : cacheMiss parse maxEntries now c d = (.ok m, c1)) :
    parse d = .ok m ∧
      c1 = { entries := (cacheStore c.entries maxEntries d.uri
               { version := d.version, model := m, lastUsedAt := now }),
             parseCount := c.parseCount + 1 } := by
  unfold cacheMiss at h
  cases hp : parse d with
  | error err =>
      rw [hp] at h
      simp at h
  | ok m0 =>
      rw [hp] at h
      simp only [Prod.mk.injEq, Except.ok.injEq] at h
      obtain ⟨rfl, h2⟩ := h
      exact ⟨rfl, h2.symm⟩

/-- C2: for a document whose version is unchanged between two cache `get`
calls, the second call returns the identical model as the first and performs
zero additional compute invocations.  The hypothesis `hmono` is clock
monotonicity: no stored recency stamp lies in the future of the first call. -/
theorem claim_C2 (parse : TextDocument → Except String Stylesheet) (t t' : Nat)
    (c c1 : LanguageModelCache) (d d' : TextDocument) (m : Stylesheet)
    (hmono : ∀ p ∈ c.entries, p.2.lastUsedAt ≤ t)
    (h1 : cacheGet parse 10 t c d = (.ok m, c1))
    (huri : d'.uri = d.uri) (hver : d'.version = d.version) :
    ∃ c2, cacheGet parse 10 t' c1 d' = (.ok m, c2) ∧ c2.parseCount = c1.parseCount := by
  have hlook : ∃ en : CacheEntry, lookupA c1.entries d.uri = some en ∧
      en.version = d.version ∧ en.model = m := by
    unfold cacheGet at h1
    cases hl : lookupA c.entries d.uri with
    | some e =>
        simp only [hl] at h1
        by_cases hv : e.version = d.version
        · rw [if_pos hv] at h1
          simp only [Prod.mk.injEq, Except.ok.injEq] at h1
          obtain ⟨h1a, h1b⟩ := h1
          refine ⟨{ e with lastUsedAt := t }, ?_, hv, h1a⟩
          rw [← h1b]
          exact cacheStore_lookup _ _ _ _ (by omega) hmono
        · rw [if_neg hv] at h1
          obtain ⟨hp, hc1⟩ := cacheMiss_ok _ _ _ _ _ _ _ h1
          refine ⟨{ version := d.version, model := m, lastUsedAt := t }, ?_, rfl, rfl⟩
          rw [hc1]
          exact cacheStore_lookup _ _ _ _ (by omega) hmono
    | none =>
        simp only [hl] at h1
        obtain ⟨hp, hc1⟩ := cacheMiss_ok _ _ _ _ _ _ _ h1
        refine ⟨{ version := d.version, model := m, lastUsedAt := t }, ?_, rfl, rfl⟩
        rw [hc1]
        exact cacheStore_lookup _ _ _ _ (by omega) hmono
  obtain ⟨en, hlk, hev, hem⟩ := hlook
  have h2 := cacheGet_hit parse 10 t' c1 d' en (by rw [huri]; exact hlk)
    (by rw [hver]; exact hev)
  refine ⟨{ c1 with entries := (cacheStore c1.entries 10 d'.uri
    { en with lastUsedAt := t' }) }, ?_, rfl⟩
  rw [h2, hem]

theorem claim_C2_witness :
    ∃ c2, cacheGet parseW 10 7 (cacheGet parseW 10 3 emptyCache docA).2 docA =
        (.ok { modelId := 1 }, c2) ∧
      c2.parseCount = ((cacheGet parseW 10 3 emptyCache docA).2).parseCount :=
  claim_C2 parseW 3 7 emptyCache ((cacheGet parseW 10 3 emptyCache docA).2) docA docA
    { modelId := 1 } (fun p hp => absurd hp (List.not_mem_nil p)) rfl rfl rfl

/-! ### Claims C1 and C3: the debounce scheduler -/

/-- The validation callback never touches the pending map or the clock, and
records exactly its own invocation. -/
theorem validateTextDocument_frame (s : ServerState) (d : TextDocument) :
    (validateTextDocument s d).pendingValidationRequests = s.pendingValidationRequests ∧
    (validateTextDocument s d).time = s.time ∧
    (validateTextDocument s d).validations = s.validations ++ [d] := by
  unfold validateTextDocument
  simp only [getDocumentSettings]
  rcases hg : stylesheetsGet { s with validations := s.validations ++ [d] } d with ⟨r, s1⟩
  have hframe := congrArg Prod.snd hg
  simp only [stylesheetsGet] at hframe
  rcases r with e | sty
  · subst hframe
    simp [logError]
  · subst hframe
    dsimp only
    refine ⟨?_, ?_, ?_⟩
    all_goals split
    all_goals simp [logError, sendDiagnostics, logInfoOpt_pending, logInfoOpt_time,
      logInfoOpt_validations]

theorem earliestDue_mem {now : Nat} :
    ∀ {l : List (String × PendingTimer)} {k : String} {pt : PendingTimer},
      earliestDue now l = some (k, pt) → (k, pt) ∈ l ∧ pt.fireAt ≤ now := by
  intro l
  induction l with
  | nil => intro k pt h; simp [earliestDue] at h
  | cons p rest ih =>
      intro k pt h
      obtain ⟨pk, ppt⟩ := p
      rw [earliestDue] at h
      by_cases hd : ppt.fireAt ≤ now
      · rw [if_pos hd] at h
        cases he : earliestDue now rest with
        | none =>
            rw [he] at h
            dsimp only at h
            injection h with h1
            injection h1 with h2 h3
            subst h2
            subst h3
            exact ⟨List.mem_cons_self _ _, hd⟩
        | some q =>
            obtain ⟨qk, qpt⟩ := q
            rw [he] at h
            dsimp only at h
            by_cases hle : ppt.fireAt ≤ qpt.fireAt
            · rw [if_pos hle] at h
              injection h with h1
              injection h1 with h2 h3
              subst h2
              subst h3
              exact ⟨List.mem_cons_self _ _, hd⟩
            · rw [if_neg hle] at h
              injection h with h1
              injection h1 with h2 h3
              subst h2
              subst h3
              obtain ⟨hm, hdue⟩ := ih he
              exact ⟨List.mem_cons_of_mem _ hm, hdue⟩
      · rw [if_neg hd] at h
        obtain ⟨hm, hdue⟩ := ih h
        exact ⟨List.mem_cons_of_mem _ hm, hdue⟩

theorem earliestDue_none {now : Nat} :
    ∀ {l : List (String × PendingTimer)},
      earliestDue now l = none → ∀ p ∈ l, ¬ p.2.fireAt ≤ now := by
  intro l
  induction l with
  | nil => intro _ p hp; exact absurd hp (List.not_mem_nil p)
  | cons p rest ih =>
      intro h q hq
      obtain ⟨pk, ppt⟩ := p
      rw [earliestDue] at h
      by_cases hd : ppt.fireAt ≤ now
      · rw [if_pos hd] at h
        cases he : earliestDue now rest with
        | none => rw [he] at h; dsimp only at h; simp at h
        | some r =>
            obtain ⟨rk, rpt⟩ := r
            rw [he] at h
            dsimp only at h
            by_cases hle : ppt.fireAt ≤ rpt.fireAt
            · rw [if_pos hle] at h; simp at h
            · rw [if_neg hle] at h; simp at h
      · rw [if_neg hd] at h
        rcases List.mem_cons.mp hq with hq1 | hq2
        · subst hq1; simpa using hd
        · exact ih h q hq2

/-- A uri with no pending entry is never validated by the timer wheel, and
acquires no entry. -/
theorem fireTimers_no_uri (uri : String) :
    ∀ (fuel : Nat) (s : ServerState),
      keysConsistent s.pendingValidationRequests →
      lookupA s.pendingValidationRequests uri = none →
      (fireTimers fuel s).validations.filter (fun x => x.uri = uri) =
          s.validations.filter (fun x => x.uri = uri) ∧
        lookupA (fireTimers fuel s).pendingValidationRequests uri = none ∧
        keysConsistent (fireTimers fuel s).pendingValidationRequests ∧
        (fireTimers fuel s).time = s.time := by
  intro fuel
  induction fuel with
  | zero => intro s hkc hnone; exact ⟨rfl, hnone, hkc, rfl⟩
  | succ n ih =>
      intro s hkc hnone
      rw [fireTimers]
      cases he : earliestDue s.time s.pendingValidationRequests with
      | none => exact ⟨rfl, hnone, hkc, rfl⟩
      | some q =>
          obtain ⟨k, pt⟩ := q
          obtain ⟨hmem, _⟩ := earliestDue_mem he
          have hkuri : k ≠ uri := by
            intro hk
            subst hk
            have h0 : (k, pt) ∈ filterKey s.pendingValidationRequests k :=
              mem_filterKey_iff.mpr ⟨hmem, rfl⟩
            rw [filterKey_eq_nil_of_lookupA_none hnone] at h0
            exact absurd h0 (List.not_mem_nil _)
          have hframe := validateTextDocument_frame
            { s with pendingValidationRequests := eraseA s.pendingValidationRequests k } pt.doc
          obtain ⟨hfp, hft, hfv⟩ := hframe
          dsimp only at hfp hft hfv
          have hkc2 : keysConsistent (validateTextDocument
              { s with pendingValidationRequests := eraseA s.pendingValidationRequests k }
              pt.doc).pendingValidationRequests := by
            rw [hfp]
            intro p hp
            exact hkc p (List.mem_of_mem_filter hp)
          have hnone2 : lookupA (validateTextDocument
              { s with pendingValidationRequests := eraseA s.pendingValidationRequests k }
              pt.doc).pendingValidationRequests uri = none := by
            rw [hfp, lookupA_eraseA_ne _ (Ne.symm hkuri)]
            exact hnone
          obtain ⟨ihv, ihl, ihk, iht⟩ := ih _ hkc2 hnone2
          refine ⟨?_, ihl, ihk, ?_⟩
          · rw [ihv, hfv]
            have hdoc : pt.doc.uri = k := hkc (k, pt) hmem
            rw [List.filter_append]
            simp [hdoc, hkuri]
          · rw [iht, hft]

/-- A pending timer that is not yet due survives the timer wheel untouched,
and its uri is not validated. -/
theorem fireTimers_keep (uri : String) (pt0 : PendingTimer) :
    ∀ (fuel : Nat) (s : ServerState),
      keysConsistent s.pendingValidationRequests →
      filterKey s.pendingValidationRequests uri = [(uri, pt0)] →
      s.time < pt0.fireAt →
      (fireTimers fuel s).validations.filter (fun x => x.uri = uri) =
          s.validations.filter (fun x => x.uri = uri) ∧
        filterKey (fireTimers fuel s).pendingValidationRequests uri = [(uri, pt0)] ∧
        keysConsistent (fireTimers fuel s).pendingValidationRequests ∧
        (fireTimers fuel s).time = s.time := by
  intro fuel
  induction fuel with
  | zero => intro s hkc hsingle hlt; exact ⟨rfl, hsingle, hkc, rfl⟩
  | succ n ih =>
      intro s hkc hsingle hlt
      rw [fireTimers]
      cases he : earliestDue s.time s.pendingValidationRequests with
      | none => exact ⟨rfl, hsingle, hkc, rfl⟩
      | some q =>
          obtain ⟨k, pt⟩ := q
          obtain ⟨hmem, hdue⟩ := earliestDue_mem he
          have hkuri : k ≠ uri := by
            intro hk
            subst hk
            have h0 : (k, pt) ∈ filterKey s.pendingValidationRequests k :=
              mem_filterKey_iff.mpr ⟨hmem, rfl⟩
            rw [hsingle] at h0
            have : pt = pt0 := by simpa using h0
            subst this
            omega
          have hframe := validateTextDocument_frame
            { s with pendingValidationRequests := eraseA s.pendingValidationRequests k } pt.doc
          obtain ⟨hfp, hft, hfv⟩ := hframe
          dsimp only at hfp hft hfv
          have hkc2 : keysConsistent (validateTextDocument
              { s with pendingValidationRequests := eraseA s.pendingValidationRequests k }
              pt.doc).pendingValidationRequests := by
            rw [hfp]
            intro p hp
            exact hkc p (List.mem_of_mem_filter hp)
          have hsingle2 : filterKey (validateTextDocument
              { s with pendingValidationRequests := eraseA s.pendingValidationRequests k }
              pt.doc).pendingValidationRequests uri = [(uri, pt0)] := by
            rw [hfp, filterKey_eraseA_ne _ (Ne.symm hkuri)]
            exact hsingle
          have hlt2 : (validateTextDocument
              { s with pendingValidationRequests := eraseA s.pendingValidationRequests k }
              pt.doc).time < pt0.fireAt := by
            rw [hft]
            exact hlt
          obtain ⟨ihv, ihs, ihk, iht⟩ := ih _ hkc2 hsingle2 hlt2
          refine ⟨?_, ihs, ihk, ?_⟩
          · rw [ihv, hfv]
            have hdoc : pt.doc.uri = k := hkc (k, pt) hmem
            rw [List.filter_append]
            simp [hdoc, hkuri]
          · rw [iht, hft]

/-- A due pending timer fires exactly once: its document is validated, its
entry is removed, and no further validation for its uri occurs. -/
theorem fireTimers_fire (uri : String) (pt0 : PendingTimer) :
    ∀ (fuel : Nat) (s : ServerState),
      keysConsistent s.pendingValidationRequests →
      filterKey s.pendingValidationRequests uri = [(uri, pt0)] →
      pt0.fireAt ≤ s.time →
      s.pendingValidationRequests.length ≤ fuel →
      (fireTimers fuel s).validations.filter (fun x => x.uri = uri) =
          s.validations.filter (fun x => x.uri = uri) ++ [pt0.doc] ∧
        lookupA (fireTimers fuel s).pendingValidationRequests uri = none := by
  intro fuel
  induction fuel with
  | zero =>
      intro s hkc hsingle hdue hlen
      have h0 : s.pendingValidationRequests = [] := List.length_eq_zero.mp (by omega)
      rw [h0] at hsingle
      simp [filterKey] at hsingle
  | succ n ih =>
      intro s hkc hsingle hdue hlen
      have hmem0 : (uri, pt0) ∈ s.pendingValidationRequests := by
        have h0 : (uri, pt0) ∈ filterKey s.pendingValidationRequests uri := by
          rw [hsingle]
          exact List.mem_singleton_self _
        exact (mem_filterKey_iff.mp h0).1
      rw [fireTimers]
      cases he : earliestDue s.time s.pendingValidationRequests with
      | none =>
          exact absurd hdue (earliestDue_none he (uri, pt0) hmem0)
      | some q =>
          obtain ⟨k, pt⟩ := q
          obtain ⟨hmem, hdueK⟩ := earliestDue_mem he
          have hframe := validateTextDocument_frame
            { s with pendingValidationRequests := eraseA s.pendingValidationRequests k } pt.doc
          obtain ⟨hfp, hft, hfv⟩ := hframe
          dsimp only at hfp hft hfv
          by_cases hk : k = uri
          · subst hk
            have hpp : pt = pt0 := by
              have h0 : (k, pt) ∈ filterKey s.pendingValidationRequests k :=
                mem_filterKey_iff.mpr ⟨hmem, rfl⟩
              rw [hsingle] at h0
              simpa using h0
            subst hpp
            have hkc2 : keysConsistent (validateTextDocument
                { s with pendingValidationRequests := eraseA s.pendingValidationRequests k }
                pt.doc).pendingValidationRequests := by
              rw [hfp]
              intro p hp
              exact hkc p (List.mem_of_mem_filter hp)
            have hnone2 : lookupA (validateTextDocument
                { s with pendingValidationRequests := eraseA s.pendingValidationRequests k }
                pt.doc).pendingValidationRequests k = none := by
              rw [hfp]
              exact lookupA_eraseA_self _ _
            obtain ⟨av, al, _, _⟩ := fireTimers_no_uri k n _ hkc2 hnone2
            refine ⟨?_, al⟩
            rw [av, hfv]
            have hdoc : pt.doc.uri = k := hkc (k, pt) hmem
            rw [List.filter_append]
            simp [hdoc]
          · have hkc2 : keysConsistent (validateTextDocument
                { s with pendingValidationRequests := eraseA s.pendingValidationRequests k }
                pt.doc).pendingValidationRequests := by
              rw [hfp]
              intro p hp
              exact hkc p (List.mem_of_mem_filter hp)
            have hsingle2 : filterKey (validateTextDocument
                { s with pendingValidationRequests := eraseA s.pendingValidationRequests k }
                pt.doc).pendingValidationRequests uri = [(uri, pt0)] := by
              rw [hfp, filterKey_eraseA_ne _ fun hc => hk hc.symm]
              exact hsingle
            have hdue2 : pt0.fireAt ≤ (validateTextDocument
                { s with pendingValidationRequests := eraseA s.pendingValidationRequests k }
                pt.doc).time := by
              rw [hft]
              exact hdue
            have hlen2 : (validateTextDocument
                { s with pendingValidationRequests := eraseA s.pendingValidationRequests k }
                pt.doc).pendingValidationRequests.length ≤ n := by
              rw [hfp]
              have := length_eraseA_lt hmem
              omega
            obtain ⟨ihv, ihl⟩ := ih _ hkc2 hsingle2 hdue2 hlen2
            refine ⟨?_, ihl⟩
            rw [ihv, hfv]
            have hdoc : pt.doc.uri = k := hkc (k, pt) hmem
            rw [List.filter_append]
            have hne : ¬ pt.doc.uri = uri := by
              rw [hdoc]
              exact hk
            simp [hne]

theorem keysConsistent_trigger (s : ServerState) (d : TextDocument)
    (hkc : keysConsistent s.pendingValidationRequests) :
    keysConsistent (triggerValidation s d).pendingValidationRequests := by
  intro p hp
  rw [triggerValidation_eq] at hp
  dsimp only at hp
  simp only [setA] at hp
  rcases List.mem_append.mp hp with h | h
  · exact hkc p (List.mem_of_mem_filter h)
  · simp only [List.mem_singleton] at h
    rw [h]

theorem advanceMany_no_uri (uri : String) :
    ∀ (ds : List Nat) (s : ServerState),
      keysConsistent s.pendingValidationRequests →
      lookupA s.pendingValidationRequests uri = none →
      (advanceMany s ds).validations.filter (fun x => x.uri = uri) =
          s.validations.filter (fun x => x.uri = uri) ∧
        lookupA (advanceMany s ds).pendingValidationRequests uri = none ∧
        keysConsistent (advanceMany s ds).pendingValidationRequests := by
  intro ds
  induction ds with
  | nil => intro s hkc hnone; exact ⟨rfl, hnone, hkc⟩
  | cons g rest ih =>
      intro s hkc hnone
      obtain ⟨h1v, h1l, h1k, _⟩ := fireTimers_no_uri uri
        ({ s with time := s.time + g } : ServerState).pendingValidationRequests.length
        { s with time := s.time + g } hkc hnone
      obtain ⟨ihv, ihl, ihk⟩ := ih (advanceTime s g) h1k h1l
      refine ⟨?_, ihl, ihk⟩
      rw [show advanceMany s (g :: rest) = advanceMany (advanceTime s g) rest from rfl, ihv]
      exact h1v

/-- C3: after the document-close event is processed, the identity has no
pending timer, no validation callback for it ever executes however far time
advances, and exactly one empty-diagnostics publish was sent for it. -/
theorem claim_C3 (s : ServerState) (d : TextDocument)
    (hkc : keysConsistent s.pendingValidationRequests) :
    lookupA (onDidClose s d).pendingValidationRequests d.uri = none ∧
    (onDidClose s d).published = s.published ++ [(d.uri, [])] ∧
    (onDidClose s d).validations = s.validations ∧
    ∀ ds : List Nat,
      (advanceMany (onDidClose s d) ds).validations.filter (fun x => x.uri = d.uri) =
        s.validations.filter (fun x => x.uri = d.uri) := by
  have hpend : (onDidClose s d).pendingValidationRequests =
      eraseA s.pendingValidationRequests d.uri := by
    simp [onDidClose, cleanPendingValidation_eq, sendDiagnostics]
  have hkc2 : keysConsistent (onDidClose s d).pendingValidationRequests := by
    rw [hpend]
    intro p hp
    exact hkc p (List.mem_of_mem_filter hp)
  have hlook : lookupA (onDidClose s d).pendingValidationRequests d.uri = none := by
    rw [hpend]
    exact lookupA_eraseA_self _ _
  have hval : (onDidClose s d).validations = s.validations := by
    simp [onDidClose, cleanPendingValidation_eq, sendDiagnostics]
  refine ⟨hlook, ?_, hval, ?_⟩
  · simp [onDidClose, cleanPendingValidation_eq, sendDiagnostics]
  · intro ds
    obtain ⟨hv, _, _⟩ := advanceMany_no_uri d.uri ds (onDidClose s d) hkc2 hlook
    rw [hv, hval]

theorem claim_C3_witness :
    lookupA (onDidClose (triggerValidation stateA docA) docA).pendingValidationRequests
        docA.uri = none ∧
    (onDidClose (triggerValidation stateA docA) docA).published = [(docA.uri, [])] ∧
    (advanceMany (onDidClose (triggerValidation stateA docA) docA) [300]).validations.filter
        (fun x => x.uri = docA.uri) = [] := by
  have hkc : keysConsistent (triggerValidation stateA docA).pendingValidationRequests := by
    intro p hp
    have hlist : (triggerValidation stateA docA).pendingValidationRequests =
        [(docA.uri, { fireAt := 200, doc := docA })] := rfl
    rw [hlist] at hp
    simp only [List.mem_singleton] at hp
    rw [hp]
  have h := claim_C3 (triggerValidation stateA docA) docA hkc
  refine ⟨h.1, ?_, ?_⟩
  · rw [h.2.1]
    rfl
  · rw [h.2.2.2 [300]]
    rfl

/-- The debounce invariant: starting right after a trigger (the identity's
sole timer is armed for `now + validationDelayMs` and captures the latest
document), a burst of further triggers spaced under the delay keeps exactly
one armed timer capturing the last document, and fires nothing for the
identity. -/
theorem runTriggers_inv (uri : String) :
    ∀ (trigs : List (Nat × TextDocument)) (s : ServerState) (dcur : TextDocument),
      keysConsistent s.pendingValidationRequests →
      filterKey s.pendingValidationRequests uri =
        [(uri, { fireAt := s.time + validationDelayMs, doc := dcur })] →
      (∀ p ∈ trigs, p.2.uri = uri) →
      (∀ p ∈ trigs, p.1 < validationDelayMs) →
      keysConsistent (runTriggers s trigs).pendingValidationRequests ∧
        filterKey (runTriggers s trigs).pendingValidationRequests uri =
          [(uri, { fireAt := (runTriggers s trigs).time + validationDelayMs,
                   doc := lastDocOf dcur trigs })] ∧
        (runTriggers s trigs).validations.filter (fun x => x.uri = uri) =
          s.validations.filter (fun x => x.uri = uri) := by
  intro trigs
  induction trigs with
  | nil => intro s dcur hkc hsingle _ _; exact ⟨hkc, hsingle, rfl⟩
  | cons gd rest ih =>
      intro s dcur hkc hsingle huri hgap
      obtain ⟨g, d⟩ := gd
      have hglt : g < validationDelayMs := hgap (g, d) (List.mem_cons_self _ _)
      have hduri : d.uri = uri := huri (g, d) (List.mem_cons_self _ _)
      have hlt : ({ s with time := s.time + g } : ServerState).time <
          ({ fireAt := s.time + validationDelayMs, doc := dcur } : PendingTimer).fireAt := by
        dsimp only
        omega
      obtain ⟨hav, has, hak, hat⟩ := fireTimers_keep uri
        { fireAt := s.time + validationDelayMs, doc := dcur }
        ({ s with time := s.time + g } : ServerState).pendingValidationRequests.length
        { s with time := s.time + g } hkc hsingle hlt
      have hav' : (advanceTime s g).validations.filter (fun x => x.uri = uri) =
          s.validations.filter (fun x => x.uri = uri) := hav
      have has' : filterKey (advanceTime s g).pendingValidationRequests uri =
          [(uri, { fireAt := s.time + validationDelayMs, doc := dcur })] := has
      have hak' : keysConsistent (advanceTime s g).pendingValidationRequests := hak
      have hat' : (advanceTime s g).time = s.time + g := hat
      have hkcB : keysConsistent
          (triggerValidation (advanceTime s g) d).pendingValidationRequests :=
        keysConsistent_trigger _ _ hak'
      have hsingleB : filterKey
          (triggerValidation (advanceTime s g) d).pendingValidationRequests uri =
          [(uri, { fireAt := (triggerValidation (advanceTime s g) d).time + validationDelayMs,
                   doc := d })] := by
        rw [triggerValidation_eq]
        dsimp only
        rw [← hduri, filterKey_setA_self]
      have hvalB : (triggerValidation (advanceTime s g) d).validations =
          (advanceTime s g).validations := by
        rw [triggerValidation_eq]
      obtain ⟨ihk, ihs, ihv⟩ := ih (triggerValidation (advanceTime s g) d) d hkcB hsingleB
        (fun p hp => huri p (List.mem_cons_of_mem _ hp))
        (fun p hp => hgap p (List.mem_cons_of_mem _ hp))
      refine ⟨ihk, ihs, ?_⟩
      rw [show runTriggers s ((g, d) :: rest) =
        runTriggers (triggerValidation (advanceTime s g) d) rest from rfl] at *
      rw [ihv, hvalB, hav']

/-- C1: any nonempty burst of `triggerValidation` calls for one identity,
each later call arriving strictly less than `validationDelayMs` after the
previous one, yields exactly one validation execution once the delay elapses,
and that execution uses the document passed to the last trigger. -/
theorem claim_C1 (s : ServerState) (uri : String) (first : Nat × TextDocument)
    (rest : List (Nat × TextDocument))
    (hkc : keysConsistent s.pendingValidationRequests)
    (hnone : lookupA s.pendingValidationRequests uri = none)
    (huri : ∀ p ∈ first :: rest, p.2.uri = uri)
    (hgap : ∀ p ∈ first :: rest, p.1 < validationDelayMs) :
    (advanceTime (runTriggers s (first :: rest)) validationDelayMs).validations.filter
        (fun x => x.uri = uri) =
      s.validations.filter (fun x => x.uri = uri) ++ [lastDocOf first.2 rest] ∧
    lookupA (advanceTime (runTriggers s (first :: rest))
        validationDelayMs).pendingValidationRequests uri = none := by
  obtain ⟨g, d⟩ := first
  have hduri : d.uri = uri := huri (g, d) (List.mem_cons_self _ _)
  obtain ⟨hav, hal, hak, hat⟩ := fireTimers_no_uri uri
    ({ s with time := s.time + g } : ServerState).pendingValidationRequests.length
    { s with time := s.time + g } hkc hnone
  have hav' : (advanceTime s g).validations.filter (fun x => x.uri = uri) =
      s.validations.filter (fun x => x.uri = uri) := hav
  have hkcB : keysConsistent
      (triggerValidation (advanceTime s g) d).pendingValidationRequests :=
    keysConsistent_trigger _ _ hak
  have hsingleB : filterKey
      (triggerValidation (advanceTime s g) d).pendingValidationRequests uri =
      [(uri, { fireAt := (triggerValidation (advanceTime s g) d).time + validationDelayMs,
               doc := d })] := by
    rw [triggerValidation_eq]
    dsimp only
    rw [← hduri, filterKey_setA_self]
  have hvalB : (triggerValidation (advanceTime s g) d).validations =
      (advanceTime s g).validations := by
    rw [triggerValidation_eq]
  obtain ⟨ik, is_, iv⟩ := runTriggers_inv uri rest (triggerValidation (advanceTime s g) d) d
    hkcB hsingleB
    (fun p hp => huri p (List.mem_cons_of_mem _ hp))
    (fun p hp => hgap p (List.mem_cons_of_mem _ hp))
  have hrw : runTriggers s ((g, d) :: rest) =
      runTriggers (triggerValidation (advanceTime s g) d) rest := rfl
  have hdue : ({ fireAt := (runTriggers (triggerValidation (advanceTime s g) d) rest).time +
      validationDelayMs, doc := lastDocOf d rest } : PendingTimer).fireAt ≤
      ({ (runTriggers (triggerValidation (advanceTime s g) d) rest) with
        time := (runTriggers (triggerValidation (advanceTime s g) d) rest).time +
          validationDelayMs } : ServerState).time := by
    dsimp only
    omega
  obtain ⟨fv, fl⟩ := fireTimers_fire uri
    { fireAt := (runTriggers (triggerValidation (advanceTime s g) d) rest).time +
        validationDelayMs, doc := lastDocOf d rest }
    ({ (runTriggers (triggerValidation (advanceTime s g) d) rest) with
      time := (runTriggers (triggerValidation (advanceTime s g) d) rest).time +
        validationDelayMs } : ServerState).pendingValidationRequests.length
    ({ (runTriggers (triggerValidation (advanceTime s g) d) rest) with
      time := (runTriggers (triggerValidation (advanceTime s g) d) rest).time +
        validationDelayMs } : ServerState)
    ik is_ hdue (Nat.le_refl _)
  constructor
  · rw [hrw]
    have fv' : (advanceTime (runTriggers (triggerValidation (advanceTime s g) d) rest)
        validationDelayMs).validations.filter (fun x => x.uri = uri) =
        (runTriggers (triggerValidation (advanceTime s g) d) rest).validations.filter
          (fun x => x.uri = uri) ++ [lastDocOf d rest] := fv
    rw [fv', iv, hvalB, hav']
  · rw [hrw]
    exact fl

theorem claim_C1_witness :
    (advanceTime (runTriggers stateA [(0, docA), (50, docA2)])
        validationDelayMs).validations.filter (fun x => x.uri = "file:///a.css") = [docA2] ∧
    lookupA (advanceTime (runTriggers stateA [(0, docA), (50, docA2)])
        validationDelayMs).pendingValidationRequests "file:///a.css" = none := by
  have h := claim_C1 stateA "file:///a.css" (0, docA) [(50, docA2)]
    (fun p hp => absurd hp (List.not_mem_nil p)) rfl (by decide) (by decide)
  refine ⟨?_, h.2⟩
  rw [h.1]
  rfl

end CssServer
